import Mathlib

/-!
Verification of the segment-consolidation core of the werewolf datapipe
(`step_1_one_click_process.py`): speaker identification, run-length merging of
consecutive same-speaker segments, short-segment correction, timeline assembly,
voiceprint filtering and time-marker parsing.

Python dictionaries are modelled as Lean structures (for the segment records) or
association lists in insertion order (for the voiceprint library, whose iteration
order is the dict's insertion order).  Times are integers (milliseconds), as in
the source.  The only numeric code abstracted is scipy's cosine distance, an
external floating-point routine: it enters `identify_speaker` as an opaque-to-us
similarity oracle argument `sim`, exactly at the call site `1 - cosine(...)`.
-/

namespace Werewolf

/-- `minsec` from the source: milliseconds to an `mm:ss` string.
Python `//` and `%` are floor division and floor modulus, hence `Int.fdiv`/`Int.fmod`;
`f"{n:02d}"` pads nonnegative single digits with a leading zero. -/
def fmt2 (n : Int) : String :=
  if 0 ≤ n ∧ n < 10 then "0" ++ toString n else toString n

def minsec (ms : Int) : String :=
  let total := Int.fdiv ms 1000
  let mm := Int.fdiv total 60
  let ss := Int.fmod total 60
  fmt2 mm ++ ":" ++ fmt2 ss

/-- One segment record.  The source passes plain dicts around; the keys read or
written by `merge_consecutive_same_speaker` and `filter_short_speaker_segments`
are `speaker`, `display_speaker`, `start_ms`, `end_ms`, `text`, `duration_ms`
and the rendered `start`/`end` strings (here `start_str`/`end_str`, since `end`
is a Lean keyword). -/
structure Seg where
  speaker : String
  display_speaker : String
  start_ms : Int
  end_ms : Int
  text : String
  duration_ms : Int
  start_str : String
  end_str : String
deriving DecidableEq

/-- The loop state of `merge_consecutive_same_speaker`:
`current_speaker`, `current_display_speaker`, `current_start`, `current_end`,
`current_texts`. -/
structure MergeAcc where
  speaker : String
  display_speaker : String
  start_ms : Int
  end_ms : Int
  texts : List String
deriving DecidableEq

/-- Starting a new run at `seg` (the `current_speaker is None` / speaker-change
branch of the source loop): `current_texts = [text] if text else []`. -/
def accInit (seg : Seg) : MergeAcc :=
  { speaker := seg.speaker
    display_speaker := seg.display_speaker
    start_ms := seg.start_ms
    end_ms := seg.end_ms
    texts := if seg.text == "" then [] else [seg.text] }

/-- Absorbing one more same-speaker segment into the current run
(`current_end = end_ms; if text: current_texts.append(text)`). -/
def accAbsorb (a : MergeAcc) (seg : Seg) : MergeAcc :=
  { a with
    end_ms := seg.end_ms
    texts := a.texts ++ (if seg.text == "" then [] else [seg.text]) }

/-- Emitting the accumulated run (the dict appended to `merged` in the source). -/
def accFlush (a : MergeAcc) : Seg :=
  { speaker := a.speaker
    display_speaker := a.display_speaker
    start_ms := a.start_ms
    end_ms := a.end_ms
    start_str := minsec a.start_ms
    end_str := minsec a.end_ms
    text := String.join a.texts
    duration_ms := a.end_ms - a.start_ms }

/-- The `for seg in segments` loop of `merge_consecutive_same_speaker`, after the
first segment has initialised the accumulator; the trailing flush is the
`if current_speaker is not None` epilogue. -/
def mergeLoop (a : MergeAcc) : List Seg → List Seg
  | [] => [accFlush a]
  | seg :: rest =>
    if seg.speaker == a.speaker then
      mergeLoop (accAbsorb a seg) rest
    else
      accFlush a :: mergeLoop (accInit seg) rest

/-- `merge_consecutive_same_speaker` from the source. -/
def merge_consecutive_same_speaker : List Seg → List Seg
  | [] => []
  | seg :: rest => mergeLoop (accInit seg) rest

/-- The spec's wording of the merger's contract (§4.2), used to state C3: one
output per maximal run of consecutive same-speaker segments, with
`start_ms` = first member's start, `end_ms` = last member's end, `text` = the
in-order concatenation of the members' non-empty texts, and
`duration_ms = end_ms - start_ms`. `first` is the run's head, `rest` its tail. -/
def runOutput (first : Seg) (rest : List Seg) : Seg :=
  let lastSeg := rest.getLastD first
  { speaker := first.speaker
    display_speaker := first.display_speaker
    start_ms := first.start_ms
    end_ms := lastSeg.end_ms
    start_str := minsec first.start_ms
    end_str := minsec lastSeg.end_ms
    text := String.join (((first :: rest).map Seg.text).filter (fun t => t != ""))
    duration_ms := lastSeg.end_ms - first.start_ms }

/-- The spec's wording of the merger (§4.2): split off the maximal leading run,
emit it as one segment, recurse on the remainder. -/
def mergeSpec : List Seg → List Seg
  | [] => []
  | s :: rest =>
    runOutput s (rest.takeWhile (fun t => t.speaker == s.speaker)) ::
      mergeSpec (rest.dropWhile (fun t => t.speaker == s.speaker))
termination_by l => l.length
decreasing_by
  simp only [List.length_cons]
  exact Nat.lt_succ_of_le (List.dropWhile_suffix _).sublist.length_le

/-! ## Short-segment corrector (`filter_short_speaker_segments`) -/

/-- Python truthiness of an optional speaker string: `None` and `""` are falsy
(the source tests `if prev_speaker and ...` / `elif prev_speaker` / `elif next_speaker`). -/
def optTruthy : Option String → Bool
  | none => false
  | some s => s != ""

/-- The body of the relabel loop for one segment: the source's
`if duration < min_duration_threshold and speaker != "未知"` guard followed by the
`if prev and prev == next / elif prev / elif next` chain.  A relabel copies the
dict and overwrites only `speaker`. -/
def correctShortSegment (prev nxt : Option String) (threshold : Int) (seg : Seg) : Seg :=
  if seg.duration_ms < threshold ∧ seg.speaker ≠ "未知" then
    if optTruthy prev && (prev == nxt) then { seg with speaker := prev.getD "" }
    else if optTruthy prev then { seg with speaker := prev.getD "" }
    else if optTruthy nxt then { seg with speaker := nxt.getD "" }
    else seg
  else seg

/-- The relabel pass of `filter_short_speaker_segments`
(`for i, segment in enumerate(merged_segments)`): neighbors are indexed in the
*unmodified* input list (`merged_segments[i-1]` when `i > 0`,
`merged_segments[i+1]` when `i < len - 1`). -/
def relabelShortPass (segs : List Seg) (threshold : Int) : List Seg :=
  segs.enum.map fun p =>
    correctShortSegment
      (if p.1 > 0 then (segs.get? (p.1 - 1)).map Seg.speaker else none)
      (if p.1 < segs.length - 1 then (segs.get? (p.1 + 1)).map Seg.speaker else none)
      threshold p.2

/-- The re-merge loop at the end of `filter_short_speaker_segments`
(`current = modified_segments[0].copy(); for i in range(1, len(...))`): adjacent
equal speakers are coalesced in place, updating `end_ms`, the rendered `end`
string, `text` (plain concatenation, empty texts included) and `duration_ms`;
`speaker`, `display_speaker`, `start_ms` and the rendered `start` stay those of
the run's first member. -/
def remergeLoop (current : Seg) : List Seg → List Seg
  | [] => [current]
  | nxt :: rest =>
    if current.speaker == nxt.speaker then
      remergeLoop
        { current with
          end_ms := nxt.end_ms
          end_str := minsec nxt.end_ms
          text := current.text ++ nxt.text
          duration_ms := nxt.end_ms - current.start_ms } rest
    else
      current :: remergeLoop nxt rest

/-- Re-merge of a whole list (the source's `if not modified_segments: return []`
guard plus the loop above). -/
def remergeList : List Seg → List Seg
  | [] => []
  | c :: rest => remergeLoop c rest

/-- `filter_short_speaker_segments` from the source.  NOTE the unit of the
parameter: despite its name `min_duration_ms`, the threshold actually compared
against `duration_ms` is `int(min_duration_ms * 1000)` — `process_video` passes
`min_speaker_duration`, a duration in seconds (default 3.0). -/
def filter_short_speaker_segments (merged_segments : List Seg) (min_duration_ms : Int) :
    List Seg :=
  if merged_segments.length ≤ 1 then merged_segments
  else
    let min_duration_threshold := min_duration_ms * 1000
    remergeList (relabelShortPass merged_segments min_duration_threshold)

/-- The claim's wording of the relabel pass (C1, spec §4.3): structural scan
threading the *original* predecessor's speaker, so relabeling decisions never see
previously relabeled neighbors; the successor is the head of the remaining
original list. -/
def relabelSpecPass (threshold : Int) : Option String → List Seg → List Seg
  | _, [] => []
  | prev, s :: rest =>
    correctShortSegment prev ((rest.head?).map Seg.speaker) threshold s ::
      relabelSpecPass threshold (some s.speaker) rest

/-! ## Speaker identifier (`identify_speaker`) -/

/-- The best-match loop of `identify_speaker`
(`for speaker, speaker_emb in voiceprints.items()` with strict improvement
`similarity > best_similarity`), starting from `best_speaker = None`,
`best_similarity = -1`.  `sim` is the external similarity routine
`1 - scipy.spatial.distance.cosine`, abstracted as an oracle; the voiceprint
dict is an association list in insertion order. -/
def bestLoop {E : Type} (sim : E → E → ℚ) (segment_emb : E) :
    List (String × E) → Option String × ℚ → Option String × ℚ
  | [], acc => acc
  | p :: rest, acc =>
    bestLoop sim segment_emb rest
      (if sim segment_emb p.2 > acc.2 then (some p.1, sim segment_emb p.2) else acc)

/-- `identify_speaker` from the source.  The result is `Option String` because
Python's `return best_speaker` can return `None` when no entry ever exceeds the
initial `-1` similarity; every ordinary return is `some`. -/
def identify_speaker {E : Type} (sim : E → E → ℚ) (segment_emb : E)
    (voiceprints : List (String × E)) (threshold : ℚ) : Option String :=
  if voiceprints.length = 0 then some "未知"
  else
    let best := bestLoop sim segment_emb voiceprints (none, -1)
    if best.2 ≥ threshold then best.1 else some "未知"

/-- The per-segment identification step of `process_video` (lines 618–625):
`speaker = identify_speaker(...) if embedding is not None else "未知"` — an
absent embedding (extraction failure) degrades to `UNKNOWN` without an error. -/
def identify_segment_speaker {E : Type} (sim : E → E → ℚ) (embedding : Option E)
    (voiceprints : List (String × E)) (threshold : ℚ) : Option String :=
  match embedding with
  | some e => identify_speaker sim e voiceprints threshold
  | none => some "未知"

/-! ## Voiceprint filtering (`filter_voiceprints_by_candidates`) -/

/-- Python `dict` lookup on an insertion-ordered association list. -/
def alistLookup {E : Type} (l : List (String × E)) (k : String) : Option E :=
  (l.find? (fun p => p.1 == k)).map Prod.snd

/-- Python `dict` item assignment: overwrite in place if the key is present,
else append. -/
def alistSet {E : Type} (l : List (String × E)) (k : String) (v : E) : List (String × E) :=
  if l.any (fun p => p.1 == k) then
    l.map (fun p => if p.1 == k then (k, v) else p)
  else l ++ [(k, v)]

/-- `filter_voiceprints_by_candidates` from the source.  `none` models the
uncaught `KeyError` raised by the unconditional
`filtered['法官'] = voiceprints['法官']` when the judge has no voiceprint. -/
def filter_voiceprints_by_candidates {E : Type} (voiceprints : List (String × E))
    (candidates : List String) : Option (List (String × E)) :=
  if candidates = [] then some voiceprints
  else
    let filtered := candidates.foldl
      (fun acc speaker =>
        match alistLookup voiceprints speaker with
        | some v => alistSet acc speaker v
        | none => acc) []
    match alistLookup voiceprints "法官" with
    | some v => some (alistSet filtered "法官" v)
    | none => none

/-- The voiceprint-selection step of `process_video` (lines 582–586):
`voiceprints = filter_voiceprints_by_candidates(...)`, then
`if not voiceprints: voiceprints = all_voiceprints` (the fall-back-to-full-library
branch).  `none` is the uncaught `KeyError` aborting the run. -/
def select_voiceprints {E : Type} (all_voiceprints : List (String × E))
    (candidates : List String) : Option (List (String × E)) :=
  match filter_voiceprints_by_candidates all_voiceprints candidates with
  | some vps => some (if vps.isEmpty then all_voiceprints else vps)
  | none => none

/-! ## Timeline assembler (`process_video`, lines 719–746) -/

/-- A time mark (`{'start_ms': ..., 'label': ...}` from `parse_config_file`). -/
structure TimeMark where
  start_ms : Int
  label : String
deriving DecidableEq

/-- One entry of `all_items`: `{"type": "speech", "data": segment}` or
`{"type": "time_mark", "data": mark}`; the top-level `start_ms` key duplicates
the payload's, so it is a function here. -/
inductive TimelineItem where
  | speech (seg : Seg)
  | time_mark (mark : TimeMark)
deriving DecidableEq

def TimelineItem.start_ms : TimelineItem → Int
  | .speech seg => seg.start_ms
  | .time_mark mark => mark.start_ms

/-- Insert an item after every already-present item whose key is `≤` its own.
`stableSortByStart` below is a stable sort by `start_ms`, hence extensionally the
same function as Python's stable `list.sort(key=lambda x: x["start_ms"])`. -/
def stableInsert (x : TimelineItem) : List TimelineItem → List TimelineItem
  | [] => [x]
  | y :: ys =>
    if x.start_ms < y.start_ms then x :: y :: ys else y :: stableInsert x ys

/-- Stable insertion sort by `start_ms`, modelling `all_items.sort(key=...)`. -/
def stableSortByStart (l : List TimelineItem) : List TimelineItem :=
  l.foldl (fun acc x => stableInsert x acc) []

/-- The timeline assembly of `process_video`: segment items are appended first,
mark items second, then the pool is stably sorted by `start_ms`. -/
def build_timeline (filtered_segments : List Seg) (time_marks : List TimeMark) :
    List TimelineItem :=
  stableSortByStart
    (filtered_segments.map TimelineItem.speech ++ time_marks.map TimelineItem.time_mark)

/-! ## Time-marker parsing (`parse_time_to_ms`)

Python's `str.strip`, `str.split(':')` and `int(...)` are modelled over the
string's character list: `pyStrip` drops surrounding whitespace, `splitOnColon`
splits on `':'`, and `pyInt?` parses an optionally signed decimal integer
(Python `int(...)`, restricted to the claim-relevant literals without inner
whitespace or underscores).  The frame branch `int(frames * 1000 / fps)` does
IEEE-double arithmetic in the source; it is modelled as exact integer arithmetic
truncated toward zero (`Int.tdiv`), with `float(...)` restricted to integer
literals — the two agree on frame counts of realistic magnitude. -/

def pyStrip (cs : List Char) : List Char :=
  ((cs.dropWhile Char.isWhitespace).reverse.dropWhile Char.isWhitespace).reverse

def splitOnColon : List Char → List (List Char)
  | [] => [[]]
  | c :: rest =>
    if c = ':' then [] :: splitOnColon rest
    else
      match splitOnColon rest with
      | [] => [[c]]
      | part :: parts => (c :: part) :: parts

def digitsVal? : List Char → Option Nat
  | [] => none
  | cs =>
    if cs.all Char.isDigit then
      some (cs.foldl (fun acc c => acc * 10 + (c.toNat - '0'.toNat)) 0)
    else none

def pyInt? : List Char → Option Int
  | '-' :: cs => (digitsVal? cs).map (fun n => -(n : Int))
  | '+' :: cs => (digitsVal? cs).map (fun n => (n : Int))
  | cs => (digitsVal? cs).map (fun n => (n : Int))

/-- `parse_time_to_ms` from the source: `"m:s"` and `"h:m:s"` parse as
milliseconds; any failure inside the colon branch falls through (the caught
`ValueError`) to the frame branch, which converts a plain number at `fps`
frames per second; anything else is `None`. -/
def parse_time_to_ms (time_str : String) (fps : Int) : Option Int :=
  let s := pyStrip time_str.toList
  let colonResult : Option Int :=
    if s.contains ':' then
      match splitOnColon s with
      | [p0, p1] =>
        match pyInt? p0, pyInt? p1 with
        | some minutes, some seconds => some ((minutes * 60 + seconds) * 1000)
        | _, _ => none
      | [p0, p1, p2] =>
        match pyInt? p0, pyInt? p1, pyInt? p2 with
        | some hours, some minutes, some seconds =>
          some ((hours * 3600 + minutes * 60 + seconds) * 1000)
        | _, _, _ => none
      | _ => none
    else none
  match colonResult with
  | some v => some v
  | none =>
    match pyInt? s with
    | some frames => some (Int.tdiv (frames * 1000) fps)
    | none => none

/-! ## Concrete sample data and auxiliary predicates used by the theorems -/

/-- A fully populated segment record, as the pipeline itself produces them:
`display_speaker = speaker`, `duration_ms = end_ms - start_ms`, rendered
`start`/`end` strings consistent with `start_ms`/`end_ms`. -/
def mkSeg (sp : String) (a b : Int) (t : String) : Seg :=
  { speaker := sp
    display_speaker := sp
    start_ms := a
    end_ms := b
    text := t
    duration_ms := b - a
    start_str := minsec a
    end_str := minsec b }

/-- A segment record whose derived fields are stale (the merger ignores and
recomputes them). -/
def rawSeg (sp : String) (a b : Int) (t : String) : Seg :=
  { speaker := sp
    display_speaker := sp
    start_ms := a
    end_ms := b
    text := t
    duration_ms := 0
    start_str := "??"
    end_str := "??" }

/-- A segment whose derived fields agree with `start_ms`/`end_ms`, which is how
every segment emitted by the merger looks. -/
def normalized (s : Seg) : Prop :=
  s.duration_ms = s.end_ms - s.start_ms ∧
    s.start_str = minsec s.start_ms ∧ s.end_str = minsec s.end_ms

/-- Speakers of two adjacent merged segments differ (the §3/§8 invariant). -/
def speakersDiffer (a b : Seg) : Prop := a.speaker ≠ b.speaker

/-- Sample segment for the timeline tie-break scenario (spec §8, scenario 6). -/
def w7seg : Seg := mkSeg "A" 90000 95000 "发言"

/-- Sample time mark at the same `start_ms` as `w7seg`. -/
def w7mark : TimeMark := { start_ms := 90000, label := "第一晚" }

/-! ## Lemmas: the run-length merger computes one output per maximal run -/

theorem mergeSpec_nil : mergeSpec [] = [] := by
  rw [mergeSpec]

theorem mergeSpec_cons (s : Seg) (rest : List Seg) :
    mergeSpec (s :: rest) =
      runOutput s (rest.takeWhile (fun t => t.speaker == s.speaker)) ::
        mergeSpec (rest.dropWhile (fun t => t.speaker == s.speaker)) := by
  rw [mergeSpec]

theorem getLastD_map {α β : Type} (f : α → β) (l : List α) :
    ∀ d : α, (l.map f).getLastD (f d) = f (l.getLastD d) := by
  induction l with
  | nil => intro d; rfl
  | cons a l ih => intro d; simp only [List.map_cons, List.getLastD_cons, ih]

theorem foldl_accAbsorb (tw : List Seg) :
    ∀ a : MergeAcc,
      tw.foldl accAbsorb a =
        { a with
          end_ms := (tw.map Seg.end_ms).getLastD a.end_ms
          texts := a.texts ++ (tw.map Seg.text).filter (fun t => t != "") } := by
  induction tw with
  | nil => intro a; simp
  | cons t tw ih =>
    intro a
    simp only [List.foldl_cons, ih, List.map_cons, List.getLastD_cons, List.filter_cons]
    cases h : t.text == "" <;>
      simp_all [accAbsorb, List.append_assoc]

theorem accFlush_foldl_accInit (s : Seg) (tw : List Seg) :
    accFlush (tw.foldl accAbsorb (accInit s)) = runOutput s tw := by
  rw [foldl_accAbsorb]
  have htext :
      (if s.text == "" then [] else [s.text]) ++ (tw.map Seg.text).filter (fun t => t != "") =
        ((s :: tw).map Seg.text).filter (fun t => t != "") := by
    cases h : s.text == "" <;> simp_all [List.filter_cons]
  simp only [accFlush, accInit, runOutput, htext, getLastD_map Seg.end_ms tw s]

theorem mergeLoop_eq (l : List Seg) :
    ∀ a : MergeAcc,
      mergeLoop a l =
        accFlush ((l.takeWhile (fun t => t.speaker == a.speaker)).foldl accAbsorb a) ::
          mergeSpec (l.dropWhile (fun t => t.speaker == a.speaker)) := by
  induction l with
  | nil => intro a; simp [mergeLoop, mergeSpec_nil]
  | cons s rest ih =>
    intro a
    cases h : s.speaker == a.speaker with
    | true =>
      have hsp : (accAbsorb a s).speaker = a.speaker := rfl
      rw [mergeLoop]
      simp only [h, if_true, List.takeWhile_cons, List.dropWhile_cons, List.foldl_cons]
      rw [ih (accAbsorb a s)]
      simp [hsp]
    | false =>
      rw [mergeLoop]
      simp only [h, Bool.false_eq_true, if_false, List.takeWhile_cons, List.dropWhile_cons,
        List.foldl_nil]
      rw [ih (accInit s), mergeSpec_cons]
      have hsp : (accInit s).speaker = s.speaker := rfl
      simp [hsp, accFlush_foldl_accInit]

/-- The merger computes exactly the spec's run decomposition. -/
theorem merge_eq_mergeSpec (l : List Seg) :
    merge_consecutive_same_speaker l = mergeSpec l := by
  cases l with
  | nil => rw [mergeSpec_nil]; rfl
  | cons s rest =>
    rw [merge_consecutive_same_speaker, mergeLoop_eq, mergeSpec_cons]
    have hsp : (accInit s).speaker = s.speaker := rfl
    simp [hsp, accFlush_foldl_accInit]

theorem dropWhile_head_not {α : Type} (p : α → Bool) :
    ∀ (l : List α) (x : α) (xs : List α), l.dropWhile p = x :: xs → p x = false := by
  intro l
  induction l with
  | nil => intro x xs h; simp [List.dropWhile] at h
  | cons a l ih =>
    intro x xs h
    cases ha : p a with
    | true =>
      rw [List.dropWhile_cons, if_pos ha] at h
      exact ih x xs h
    | false =>
      rw [List.dropWhile_cons, if_neg (by simp [ha])] at h
      cases h
      exact ha

theorem mergeSpec_chainAux :
    ∀ (n : Nat) (l : List Seg), l.length ≤ n →
      List.Chain' speakersDiffer (mergeSpec l) := by
  intro n
  induction n with
  | zero =>
    intro l hl
    cases l with
    | nil => simp [mergeSpec_nil]
    | cons s rest => simp at hl
  | succ n ih =>
    intro l hl
    cases l with
    | nil => simp [mergeSpec_nil]
    | cons s rest =>
      rw [mergeSpec_cons, List.chain'_cons']
      constructor
      · intro y hy
        cases hd : rest.dropWhile (fun t => t.speaker == s.speaker) with
        | nil => rw [hd, mergeSpec_nil] at hy; simp at hy
        | cons t ts =>
          rw [hd, mergeSpec_cons] at hy
          simp only [List.head?_cons, Option.mem_def, Option.some.injEq] at hy
          subst hy
          have hne : (t.speaker == s.speaker) = false := dropWhile_head_not _ rest t ts hd
          rw [beq_eq_false_iff_ne] at hne
          show s.speaker ≠ t.speaker
          exact Ne.symm hne
      · refine ih _ (le_trans ?_ (Nat.le_of_succ_le_succ hl))
        simpa using (List.dropWhile_suffix
          (fun t => t.speaker == s.speaker) (l := rest)).sublist.length_le

theorem chain'_mergeSpec (l : List Seg) : List.Chain' speakersDiffer (mergeSpec l) :=
  mergeSpec_chainAux l.length l le_rfl

theorem runOutput_normalized (f : Seg) (r : List Seg) : normalized (runOutput f r) :=
  ⟨rfl, rfl, rfl⟩

theorem mergeSpec_normalizedAux :
    ∀ (n : Nat) (l : List Seg), l.length ≤ n →
      ∀ x ∈ mergeSpec l, normalized x := by
  intro n
  induction n with
  | zero =>
    intro l hl x hx
    cases l with
    | nil => rw [mergeSpec_nil] at hx; simp at hx
    | cons s rest => simp at hl
  | succ n ih =>
    intro l hl x hx
    cases l with
    | nil => rw [mergeSpec_nil] at hx; simp at hx
    | cons s rest =>
      rw [mergeSpec_cons] at hx
      cases hx with
      | head => exact runOutput_normalized _ _
      | tail _ hx =>
        refine ih _ (le_trans ?_ (Nat.le_of_succ_le_succ hl)) x hx
        simpa using (List.dropWhile_suffix
          (fun t => t.speaker == s.speaker) (l := rest)).sublist.length_le

theorem mergeSpec_normalized (l : List Seg) : ∀ x ∈ mergeSpec l, normalized x :=
  mergeSpec_normalizedAux l.length l le_rfl

theorem seg_fields_eq {x y : Seg} (h1 : x.speaker = y.speaker)
    (h2 : x.display_speaker = y.display_speaker) (h3 : x.start_ms = y.start_ms)
    (h4 : x.end_ms = y.end_ms) (h5 : x.text = y.text) (h6 : x.duration_ms = y.duration_ms)
    (h7 : x.start_str = y.start_str) (h8 : x.end_str = y.end_str) : x = y := by
  cases x; cases y; simp_all

theorem join_filter_single (t : String) :
    String.join (List.filter (fun u => u != "") [t]) = t := by
  cases ht : t == "" with
  | true =>
    have h : t = "" := by simpa using ht
    subst h
    simp [String.join]
  | false =>
    have h : t ≠ "" := by simpa using ht
    simp [List.filter_cons, ht, String.join, h]

theorem runOutput_nil (s : Seg) (h : normalized s) : runOutput s [] = s := by
  obtain ⟨h1, h2, h3⟩ := h
  exact seg_fields_eq rfl rfl rfl rfl (join_filter_single s.text) h1.symm h2.symm h3.symm

theorem mergeSpec_fixed (l : List Seg) (hc : List.Chain' speakersDiffer l)
    (hn : ∀ x ∈ l, normalized x) : mergeSpec l = l := by
  induction l with
  | nil => exact mergeSpec_nil
  | cons s rest ih =>
    have hne : ∀ (t : Seg) (ts : List Seg), rest = t :: ts →
        ¬((t.speaker == s.speaker) = true) := by
      intro t ts hr h
      subst hr
      have hst : speakersDiffer s t := (List.chain'_cons.mp hc).1
      exact hst ((by simpa using h : t.speaker = s.speaker)).symm
    have htw : rest.takeWhile (fun t => t.speaker == s.speaker) = [] := by
      cases hr : rest with
      | nil => rfl
      | cons t ts => rw [List.takeWhile_cons, if_neg (hne t ts hr)]
    have hdw : rest.dropWhile (fun t => t.speaker == s.speaker) = rest := by
      cases hr : rest with
      | nil => rfl
      | cons t ts => rw [List.dropWhile_cons, if_neg (hne t ts hr)]
    rw [mergeSpec_cons, htw, hdw, runOutput_nil s (hn s (List.mem_cons_self s rest)),
      ih (List.Chain'.tail hc) (fun x hx => hn x (List.mem_cons_of_mem s hx))]

/-! ## Lemmas: the relabel pass reads neighbors from the unmodified input -/

theorem relabelShortPass_getElem? (segs : List Seg) (T : Int) (i : Nat) :
    (relabelShortPass segs T)[i]? = (segs[i]?).map (fun seg =>
      correctShortSegment
        (if i > 0 then (segs.get? (i - 1)).map Seg.speaker else none)
        (if i < segs.length - 1 then (segs.get? (i + 1)).map Seg.speaker else none)
        T seg) := by
  unfold relabelShortPass
  rw [List.getElem?_map, List.getElem?_enum]
  cases segs[i]? <;> rfl

theorem relabelSpecPass_getElem? (T : Int) :
    ∀ (l : List Seg) (prev : Option String) (i : Nat),
      (relabelSpecPass T prev l)[i]? = (l[i]?).map (fun seg =>
        correctShortSegment (if i = 0 then prev else (l[i - 1]?).map Seg.speaker)
          ((l[i + 1]?).map Seg.speaker) T seg) := by
  intro l
  induction l with
  | nil => intro prev i; simp [relabelSpecPass]
  | cons s rest ih =>
    intro prev i
    cases i with
    | zero =>
      rw [show relabelSpecPass T prev (s :: rest) =
        correctShortSegment prev ((rest.head?).map Seg.speaker) T s ::
          relabelSpecPass T (some s.speaker) rest from rfl]
      rw [List.getElem?_cons_zero, List.getElem?_cons_zero, List.getElem?_cons_succ,
        List.head?_eq_getElem?]
      rfl
    | succ j =>
      rw [show relabelSpecPass T prev (s :: rest) =
        correctShortSegment prev ((rest.head?).map Seg.speaker) T s ::
          relabelSpecPass T (some s.speaker) rest from rfl]
      rw [List.getElem?_cons_succ, ih, List.getElem?_cons_succ]
      cases j with
      | zero => simp
      | succ k => simp

theorem relabel_passes_eq (segs : List Seg) (T : Int) :
    relabelShortPass segs T = relabelSpecPass T none segs := by
  apply List.ext_getElem?
  intro i
  rw [relabelShortPass_getElem?, relabelSpecPass_getElem?]
  cases h : segs[i]? with
  | none => rfl
  | some s =>
    simp only [Option.map_some', Option.some.injEq]
    have hprev : (if i > 0 then (segs.get? (i - 1)).map Seg.speaker else none) =
        (if i = 0 then none else (segs[i - 1]?).map Seg.speaker) := by
      cases i with
      | zero => rfl
      | succ j => simp [List.get?_eq_getElem?]
    have hnxt : (if i < segs.length - 1 then (segs.get? (i + 1)).map Seg.speaker else none) =
        (segs[i + 1]?).map Seg.speaker := by
      by_cases hlt : i < segs.length - 1
      · rw [if_pos hlt, List.get?_eq_getElem?]
      · rw [if_neg hlt]
        have hi : i < segs.length := by
          by_contra hc
          rw [List.getElem?_eq_none (Nat.le_of_not_lt hc)] at h
          exact Option.noConfusion h
        have : segs.length ≤ i + 1 := by omega
        rw [List.getElem?_eq_none this, Option.map_none']
    rw [hprev, hnxt]

/-! ## Lemmas: the re-merge loop leaves no two adjacent equal speakers -/

theorem remergeLoop_head :
    ∀ (l : List Seg) (c : Seg), ∃ d tl,
      remergeLoop c l = d :: tl ∧ d.speaker = c.speaker := by
  intro l
  induction l with
  | nil => intro c; exact ⟨c, [], rfl, rfl⟩
  | cons n rest ih =>
    intro c
    cases h : c.speaker == n.speaker with
    | true =>
      obtain ⟨d, tl, heq, hsp⟩ := ih
        { c with
          end_ms := n.end_ms
          end_str := minsec n.end_ms
          text := c.text ++ n.text
          duration_ms := n.end_ms - c.start_ms }
      exact ⟨d, tl, by simp [remergeLoop, h, heq], hsp⟩
    | false => exact ⟨c, remergeLoop n rest, by simp [remergeLoop, h], rfl⟩

theorem remergeLoop_chain :
    ∀ (l : List Seg) (c : Seg), List.Chain' speakersDiffer (remergeLoop c l) := by
  intro l
  induction l with
  | nil => intro c; simp [remergeLoop]
  | cons n rest ih =>
    intro c
    cases h : c.speaker == n.speaker with
    | true => simpa [remergeLoop, h] using ih _
    | false =>
      rw [show remergeLoop c (n :: rest) = c :: remergeLoop n rest by simp [remergeLoop, h]]
      rw [List.chain'_cons']
      refine ⟨?_, ih n⟩
      intro y hy
      obtain ⟨d, tl, heq, hsp⟩ := remergeLoop_head rest n
      rw [heq] at hy
      simp only [List.head?_cons, Option.mem_def, Option.some.injEq] at hy
      subst hy
      show c.speaker ≠ d.speaker
      rw [hsp]
      exact fun hc => (by simpa using h : c.speaker ≠ n.speaker) hc

theorem chain'_filter_short (l : List Seg) (d : Int) :
    List.Chain' speakersDiffer (filter_short_speaker_segments l d) := by
  unfold filter_short_speaker_segments
  by_cases h : l.length ≤ 1
  · rw [if_pos h]
    cases l with
    | nil => simp
    | cons a rest =>
      cases rest with
      | nil => simp
      | cons b r => simp at h
  · rw [if_neg h]
    show List.Chain' speakersDiffer (remergeList (relabelShortPass l (d * 1000)))
    cases hr : relabelShortPass l (d * 1000) with
    | nil => simp [remergeList]
    | cons c rest => exact remergeLoop_chain rest c

/-! ## Lemmas: stable sort by `start_ms` -/

theorem stableInsert_mem (x : TimelineItem) :
    ∀ (l : List TimelineItem) (a : TimelineItem), a ∈ stableInsert x l ↔ a = x ∨ a ∈ l := by
  intro l
  induction l with
  | nil => intro a; simp [stableInsert]
  | cons y ys ih =>
    intro a
    by_cases h : x.start_ms < y.start_ms
    · simp [stableInsert, if_pos h, List.mem_cons]
    · simp only [stableInsert, if_neg h, List.mem_cons, ih]
      tauto

theorem stableInsert_pairwise (x : TimelineItem) :
    ∀ l : List TimelineItem, l.Pairwise (fun a b => a.start_ms ≤ b.start_ms) →
      (stableInsert x l).Pairwise (fun a b => a.start_ms ≤ b.start_ms) := by
  intro l
  induction l with
  | nil => intro _; simp [stableInsert]
  | cons y ys ih =>
    intro hp
    rw [List.pairwise_cons] at hp
    obtain ⟨hy, hys⟩ := hp
    by_cases h : x.start_ms < y.start_ms
    · rw [show stableInsert x (y :: ys) = x :: y :: ys by simp [stableInsert, h]]
      rw [List.pairwise_cons]
      refine ⟨?_, List.pairwise_cons.mpr ⟨hy, hys⟩⟩
      intro b hb
      rcases List.mem_cons.mp hb with rfl | hb
      · exact le_of_lt h
      · exact le_trans (le_of_lt h) (hy b hb)
    · rw [show stableInsert x (y :: ys) = y :: stableInsert x ys by simp [stableInsert, h]]
      rw [List.pairwise_cons]
      refine ⟨?_, ih hys⟩
      intro b hb
      rcases (stableInsert_mem x ys b).mp hb with rfl | hb
      · exact le_of_not_lt h
      · exact hy b hb

theorem stableInsert_filter (t : Int) (x : TimelineItem) :
    ∀ l : List TimelineItem, l.Pairwise (fun a b => a.start_ms ≤ b.start_ms) →
      (stableInsert x l).filter (fun i => i.start_ms == t) =
        if x.start_ms == t then l.filter (fun i => i.start_ms == t) ++ [x]
        else l.filter (fun i => i.start_ms == t) := by
  intro l
  induction l with
  | nil => intro _; cases h : x.start_ms == t <;> simp [stableInsert, List.filter_cons, h]
  | cons y ys ih =>
    intro hp
    rw [List.pairwise_cons] at hp
    obtain ⟨hy, hys⟩ := hp
    by_cases h : x.start_ms < y.start_ms
    · rw [show stableInsert x (y :: ys) = x :: y :: ys by simp [stableInsert, h]]
      cases hx : x.start_ms == t with
      | false => simp [List.filter_cons, hx]
      | true =>
        have hxt : x.start_ms = t := by simpa using hx
        have hnil : (y :: ys).filter (fun i => i.start_ms == t) = [] := by
          rw [List.filter_eq_nil_iff]
          intro a ha
          have hle : y.start_ms ≤ a.start_ms := by
            rcases List.mem_cons.mp ha with rfl | ha
            · exact le_refl _
            · exact hy a ha
          have hta : t < a.start_ms := lt_of_lt_of_le (hxt ▸ h) hle
          simp only [beq_iff_eq]
          omega
        simp [List.filter_cons, hx, hnil]
    · rw [show stableInsert x (y :: ys) = y :: stableInsert x ys by simp [stableInsert, h]]
      rw [List.filter_cons, ih hys, List.filter_cons]
      cases hx : x.start_ms == t <;> cases hyt : y.start_ms == t <;> simp [hx, hyt]

theorem foldl_stableInsert_pairwise :
    ∀ l acc : List TimelineItem, acc.Pairwise (fun a b => a.start_ms ≤ b.start_ms) →
      (l.foldl (fun a x => stableInsert x a) acc).Pairwise
        (fun a b => a.start_ms ≤ b.start_ms) := by
  intro l
  induction l with
  | nil => intro acc h; exact h
  | cons x l ih => intro acc h; exact ih _ (stableInsert_pairwise x acc h)

theorem foldl_stableInsert_filter (t : Int) :
    ∀ l acc : List TimelineItem, acc.Pairwise (fun a b => a.start_ms ≤ b.start_ms) →
      (l.foldl (fun a x => stableInsert x a) acc).filter (fun i => i.start_ms == t) =
        acc.filter (fun i => i.start_ms == t) ++ l.filter (fun i => i.start_ms == t) := by
  intro l
  induction l with
  | nil => intro acc h; simp
  | cons x l ih =>
    intro acc h
    rw [List.foldl_cons, ih _ (stableInsert_pairwise x acc h), stableInsert_filter t x acc h,
      List.filter_cons]
    cases hx : x.start_ms == t <;> simp [hx, List.append_assoc]

theorem stableSort_pairwise (l : List TimelineItem) :
    (stableSortByStart l).Pairwise (fun a b => a.start_ms ≤ b.start_ms) :=
  foldl_stableInsert_pairwise l [] (by simp)

theorem stableSort_filter (t : Int) (l : List TimelineItem) :
    (stableSortByStart l).filter (fun i => i.start_ms == t) =
      l.filter (fun i => i.start_ms == t) := by
  unfold stableSortByStart
  rw [foldl_stableInsert_filter t l [] (by simp)]
  rfl

theorem pair_sublist {α : Type} :
    ∀ (l : List α) (i j : Nat) (hi : i < l.length) (hj : j < l.length), i < j →
      [l.get ⟨i, hi⟩, l.get ⟨j, hj⟩].Sublist l := by
  intro l
  induction l with
  | nil => intro i j hi; simp at hi
  | cons a l ih =>
    intro i j hi hj hij
    cases i with
    | zero =>
      cases j with
      | zero => omega
      | succ j' =>
        show [a, l.get ⟨j', _⟩].Sublist (a :: l)
        refine List.Sublist.cons₂ a ?_
        rw [List.singleton_sublist]
        exact List.get_mem l j' _
    | succ i' =>
      cases j with
      | zero => omega
      | succ j' =>
        show [l.get ⟨i', _⟩, l.get ⟨j', _⟩].Sublist (a :: l)
        exact List.Sublist.cons a (ih i' j' _ _ (by omega))

theorem no_mark_before_speech (m : TimeMark) (s : Seg) :
    ∀ A B : List TimelineItem,
      (∀ x ∈ A, ∃ g, x = TimelineItem.speech g) →
      (∀ x ∈ B, ∃ m', x = TimelineItem.time_mark m') →
      ¬ ([TimelineItem.time_mark m, TimelineItem.speech s].Sublist (A ++ B)) := by
  intro A
  induction A with
  | nil =>
    intro B _ hB h
    rw [List.nil_append] at h
    have hmem : TimelineItem.speech s ∈ B := h.subset (by simp)
    obtain ⟨m', hm'⟩ := hB _ hmem
    exact absurd hm' (by simp)
  | cons a A ih =>
    intro B hA hB h
    rw [List.cons_append, List.sublist_cons_iff] at h
    rcases h with h | ⟨r, hr, hsub⟩
    · exact ih B (fun x hx => hA x (List.mem_cons_of_mem a hx)) hB h
    · obtain ⟨g, hg⟩ := hA a (List.mem_cons_self a A)
      rw [List.cons.injEq] at hr
      rw [← hr.1] at hg
      exact absurd hg (by simp)

/-! ## Lemmas: the best-similarity loop of the speaker identifier -/

theorem bestLoop_acc_le {E : Type} (sim : E → E → ℚ) (e : E) :
    ∀ (l : List (String × E)) (acc : Option String × ℚ),
      acc.2 ≤ (bestLoop sim e l acc).2 := by
  intro l
  induction l with
  | nil => intro acc; exact le_refl _
  | cons p l ih =>
    intro acc
    simp only [bestLoop]
    refine le_trans ?_ (ih _)
    by_cases h : sim e p.2 > acc.2
    · rw [if_pos h]; exact le_of_lt h
    · rw [if_neg h]

theorem bestLoop_mem_le {E : Type} (sim : E → E → ℚ) (e : E) :
    ∀ (l : List (String × E)) (acc : Option String × ℚ) (p : String × E), p ∈ l →
      sim e p.2 ≤ (bestLoop sim e l acc).2 := by
  intro l
  induction l with
  | nil => intro acc p hp; simp at hp
  | cons q l ih =>
    intro acc p hp
    rcases List.mem_cons.mp hp with rfl | hp
    · simp only [bestLoop]
      refine le_trans ?_ (bestLoop_acc_le sim e l _)
      by_cases h : sim e p.2 > acc.2
      · rw [if_pos h]
      · rw [if_neg h]; exact le_of_not_lt h
    · simp only [bestLoop]
      exact ih _ p hp

theorem bestLoop_cases {E : Type} (sim : E → E → ℚ) (e : E) :
    ∀ (l : List (String × E)) (acc : Option String × ℚ),
      bestLoop sim e l acc = acc ∨
        ∃ p ∈ l, bestLoop sim e l acc = (some p.1, sim e p.2) := by
  intro l
  induction l with
  | nil => intro acc; left; rfl
  | cons q l ih =>
    intro acc
    simp only [bestLoop]
    by_cases h : sim e q.2 > acc.2
    · rw [if_pos h]
      rcases ih (some q.1, sim e q.2) with heq | ⟨p, hp, heq⟩
      · right; exact ⟨q, List.mem_cons_self q l, heq⟩
      · right; exact ⟨p, List.mem_cons_of_mem q hp, heq⟩
    · rw [if_neg h]
      rcases ih acc with heq | ⟨p, hp, heq⟩
      · left; exact heq
      · right; exact ⟨p, List.mem_cons_of_mem q hp, heq⟩

/-! ## Claim theorems -/

theorem correct_no_neighbors (T : Int) (s : Seg) :
    correctShortSegment none none T s = s := by
  simp [correctShortSegment, optTruthy]

/-- Claim C3 (confirmed): the run-length merger combines each maximal run of
consecutive same-speaker segments into one output segment whose `start_ms` is
the run's first member's start, `end_ms` the last member's end, `text` the
in-order concatenation of the members' non-empty texts, and
`duration_ms = end_ms - start_ms`; the empty input yields the empty output; the
spec's scenario 3 `[A@0-1000, A@1000-2000, B@2000-2500] → [A@0-2000, B@2000-2500]`
holds. -/
theorem C3_merger_contract :
    (∀ l : List Seg, merge_consecutive_same_speaker l = mergeSpec l) ∧
    merge_consecutive_same_speaker [] = [] ∧
    merge_consecutive_same_speaker
        [rawSeg "A" 0 1000 "x", rawSeg "A" 1000 2000 "y", rawSeg "B" 2000 2500 "z"] =
      [mkSeg "A" 0 2000 "xy", mkSeg "B" 2000 2500 "z"] :=
  ⟨merge_eq_mergeSpec, rfl, by decide⟩

/-- Claim C4 (confirmed): the run-length merger is idempotent —
`merge(merge(X)) = merge(X)` for every list `X`. -/
theorem C4_merger_idempotent (l : List Seg) :
    merge_consecutive_same_speaker (merge_consecutive_same_speaker l) =
      merge_consecutive_same_speaker l := by
  rw [merge_eq_mergeSpec, merge_eq_mergeSpec]
  exact mergeSpec_fixed (mergeSpec l) (chain'_mergeSpec l) (mergeSpec_normalized l)

/-- Claim C5 (confirmed): in the output of the run-length merger and in the
output of the short-segment corrector (including its final re-merge), no two
chronologically adjacent segments share the same speaker. -/
theorem C5_no_adjacent_same_speaker :
    (∀ l : List Seg,
      List.Chain' speakersDiffer (merge_consecutive_same_speaker l)) ∧
    (∀ (l : List Seg) (d : Int),
      List.Chain' speakersDiffer (filter_short_speaker_segments l d)) :=
  ⟨fun l => (merge_eq_mergeSpec l) ▸ chain'_mergeSpec l, chain'_filter_short⟩

/-- Claim C1 (corrected): the short-segment corrector relabels exactly the
segments whose speaker is not UNKNOWN and whose `duration_ms` is strictly below
`min_duration_ms * 1000` — the parameter is a duration in *seconds* despite its
name (the source computes `int(min_duration_ms * 1000)` and `process_video`
passes `min_speaker_duration`, default 3.0 s) — reading both neighbors' speakers
from the unmodified input list (both truthy neighbors equal → shared speaker;
else a truthy predecessor → its speaker; else a truthy successor → its speaker;
else unchanged), then re-merges.  The spec's scenario 4 holds with argument `3`
(threshold 3000 ms): `[A@0-5000, B@5000-5800, A@5800-9000] → [A@0-9000]`. -/
theorem C1_short_corrector_amended :
    (∀ (segs : List Seg) (d : Int),
      filter_short_speaker_segments segs d =
        remergeList (relabelSpecPass (d * 1000) none segs)) ∧
    filter_short_speaker_segments
        [mkSeg "A" 0 5000 "a1", mkSeg "B" 5000 5800 "b", mkSeg "A" 5800 9000 "a2"] 3 =
      [mkSeg "A" 0 9000 "a1ba2"] := by
  constructor
  · intro segs d
    unfold filter_short_speaker_segments
    by_cases h : segs.length ≤ 1
    · rw [if_pos h]
      cases segs with
      | nil => rfl
      | cons s rest =>
        cases rest with
        | nil =>
          show [s] = remergeList (relabelSpecPass (d * 1000) none [s])
          rw [show relabelSpecPass (d * 1000) none [s] =
            [correctShortSegment none none (d * 1000) s] from rfl]
          rw [correct_no_neighbors]
          rfl
        | cons b r => simp at h
    · rw [if_neg h]
      show remergeList (relabelShortPass segs (d * 1000)) = _
      rw [relabel_passes_eq]
  · decide

/-- Claim C1, counterexample to the claim as stated: calling the corrector with
`min_duration_ms = 3000` (as the claimed scenario does) uses a threshold of
`3000 * 1000` ms, every segment of the scenario is then "short", and the result
has three segments rather than the claimed single `[A@0-9000]`. -/
theorem C1_short_corrector_cex :
    (filter_short_speaker_segments
        [mkSeg "A" 0 5000 "a1", mkSeg "B" 5000 5800 "b", mkSeg "A" 5800 9000 "a2"]
        3000).length ≠ 1 := by
  decide

/-- Claim C2 (corrected): segments whose speaker is UNKNOWN are *skipped* by the
relabel pass (the spec's own policy line), so the merged input
`[A@0-5000, UNKNOWN@5000-5200]` is returned unchanged; with a non-UNKNOWN short
last segment `B@5000-5200` in its place the predecessor-only boundary rule does
relabel it to `A` and the re-merge yields the single segment `[A@0-5200]`. -/
theorem C2_boundary_amended :
    filter_short_speaker_segments
        [mkSeg "A" 0 5000 "a", mkSeg "未知" 5000 5200 "u"] 3 =
      [mkSeg "A" 0 5000 "a", mkSeg "未知" 5000 5200 "u"] ∧
    filter_short_speaker_segments
        [mkSeg "A" 0 5000 "a", mkSeg "B" 5000 5200 "b"] 3 =
      [mkSeg "A" 0 5200 "ab"] :=
  ⟨by decide, by decide⟩

/-- Claim C2, counterexample to the claim as stated: on
`[A@0-5000, UNKNOWN@5000-5200]` with the 3000 ms threshold the corrector does
*not* produce a single segment `[A@0-5200]` — the UNKNOWN segment is never
relabeled and the output still has two segments. -/
theorem C2_boundary_cex :
    (filter_short_speaker_segments
        [mkSeg "A" 0 5000 "a", mkSeg "未知" 5000 5200 "u"] 3).length ≠ 1 := by
  decide

/-- Claim C6 (confirmed): for a non-empty voiceprint library (and any threshold
above the loop's initial `-1` sentinel, which the default 0.3 is), the speaker
identifier returns the name of a library speaker attaining the maximum
similarity when that maximum is `≥ threshold`, and UNKNOWN (`未知`) when every
similarity is below the threshold; a segment with an absent embedding is
labeled UNKNOWN without an error.  Cosine similarity is the abstract oracle
`sim`. -/
theorem C6_identify_threshold {E : Type} (sim : E → E → ℚ) (e : E)
    (vps : List (String × E)) (th : ℚ) (hne : vps ≠ []) (hth : -1 < th) :
    ((∀ p ∈ vps, sim e p.2 < th) → identify_speaker sim e vps th = some "未知") ∧
    ((∃ p ∈ vps, th ≤ sim e p.2) →
      ∃ q ∈ vps, identify_speaker sim e vps th = some q.1 ∧
        ∀ p ∈ vps, sim e p.2 ≤ sim e q.2) ∧
    identify_segment_speaker sim none vps th = some "未知" := by
  have hlen : ¬ vps.length = 0 := fun h0 => hne (List.length_eq_zero.mp h0)
  refine ⟨?_, ?_, rfl⟩
  · intro hall
    unfold identify_speaker
    rw [if_neg hlen]
    show (if (bestLoop sim e vps (none, -1)).2 ≥ th
      then (bestLoop sim e vps (none, -1)).1 else some "未知") = some "未知"
    rcases bestLoop_cases sim e vps (none, -1) with heq | ⟨p, hp, heq⟩
    · rw [heq]
      exact if_neg (not_le.mpr hth)
    · rw [heq]
      exact if_neg (not_le.mpr (hall p hp))
  · rintro ⟨p0, hp0, hth0⟩
    have hbest2 : th ≤ (bestLoop sim e vps (none, -1)).2 :=
      le_trans hth0 (bestLoop_mem_le sim e vps (none, -1) p0 hp0)
    rcases bestLoop_cases sim e vps (none, -1) with heq | ⟨q, hq, heq⟩
    · rw [heq] at hbest2
      exact absurd hbest2 (not_le.mpr hth)
    · refine ⟨q, hq, ?_, ?_⟩
      · unfold identify_speaker
        rw [if_neg hlen]
        show (if (bestLoop sim e vps (none, -1)).2 ≥ th
          then (bestLoop sim e vps (none, -1)).1 else some "未知") = some q.1
        rw [if_pos hbest2, heq]
      · intro p hp
        have hle := bestLoop_mem_le sim e vps (none, -1) p hp
        rw [heq] at hle
        exact hle

/-- Claim C6, witness: on the concrete two-speaker library
`[张三 ↦ 2, 李四 ↦ 1]` with oracle `sim a b = a * b`, embedding `1` and the
default threshold `0.3`, the identifier returns a maximum-similarity speaker. -/
theorem C6_identify_threshold_witness :
    ([("张三", (2 : ℚ)), ("李四", (1 : ℚ))] ≠ ([] : List (String × ℚ))) ∧
    ((-1 : ℚ) < 3 / 10) ∧
    (∃ q ∈ [("张三", (2 : ℚ)), ("李四", (1 : ℚ))],
      identify_speaker (fun a b => a * b) (1 : ℚ)
          [("张三", (2 : ℚ)), ("李四", (1 : ℚ))] (3 / 10) = some q.1 ∧
      ∀ p ∈ [("张三", (2 : ℚ)), ("李四", (1 : ℚ))],
        (1 : ℚ) * p.2 ≤ (1 : ℚ) * q.2) :=
  ⟨by decide, by norm_num,
    (C6_identify_threshold (fun a b => a * b) (1 : ℚ)
        [("张三", (2 : ℚ)), ("李四", (1 : ℚ))] (3 / 10)
        (by decide) (by norm_num)).2.1
      ⟨("张三", (2 : ℚ)), by decide, by norm_num⟩⟩

/-- Claim C7 (confirmed): the assembled timeline is ordered by non-decreasing
`start_ms`, and a mark item never precedes a segment item carrying the same
`start_ms` (so at equal keys the segment item comes first). -/
theorem C7_timeline_order (segs : List Seg) (marks : List TimeMark) :
    (build_timeline segs marks).Pairwise (fun a b => a.start_ms ≤ b.start_ms) ∧
    ∀ (i j : Nat) (hi : i < (build_timeline segs marks).length)
      (hj : j < (build_timeline segs marks).length) (m : TimeMark) (s : Seg),
      (build_timeline segs marks).get ⟨i, hi⟩ = TimelineItem.time_mark m →
      (build_timeline segs marks).get ⟨j, hj⟩ = TimelineItem.speech s →
      s.start_ms = m.start_ms → j < i := by
  constructor
  · exact stableSort_pairwise _
  · intro i j hi hj m s hm hs hts
    rcases Nat.lt_trichotomy j i with h | h | h
    · exact h
    · exfalso
      subst h
      exact absurd (hm.symm.trans hs) (by simp)
    · exfalso
      have hsub := pair_sublist (build_timeline segs marks) i j hi hj h
      rw [hm, hs] at hsub
      have hfil := List.Sublist.filter (fun x => x.start_ms == m.start_ms) hsub
      have hf2 : List.filter (fun x => x.start_ms == m.start_ms)
          [TimelineItem.time_mark m, TimelineItem.speech s] =
          [TimelineItem.time_mark m, TimelineItem.speech s] := by
        simp [List.filter_cons, TimelineItem.start_ms, hts]
      rw [hf2, show build_timeline segs marks = stableSortByStart
            (segs.map TimelineItem.speech ++ marks.map TimelineItem.time_mark) from rfl,
        stableSort_filter, List.filter_append] at hfil
      refine no_mark_before_speech m s _ _ ?_ ?_ hfil
      · intro x hx
        rw [List.filter_map] at hx
        obtain ⟨g, _, rfl⟩ := List.mem_map.mp hx
        exact ⟨g, rfl⟩
      · intro x hx
        rw [List.filter_map] at hx
        obtain ⟨m', _, rfl⟩ := List.mem_map.mp hx
        exact ⟨m', rfl⟩

/-- Claim C7, witness: with one segment and one mark both at `start_ms = 90000`
(the spec's scenario 6) the assembled timeline puts the segment item first. -/
theorem C7_timeline_order_witness :
    build_timeline [w7seg] [w7mark] =
      [TimelineItem.speech w7seg, TimelineItem.time_mark w7mark] ∧ (0 : Nat) < 1 :=
  ⟨by decide,
    (C7_timeline_order [w7seg] [w7mark]).2 1 0 (by decide) (by decide) w7mark w7seg
      (by decide) (by decide) (by decide)⟩

/-- Claim C8 (code bug): with a non-empty roster whose members all lack
voiceprints, the run does *not* fall back to the full library: the unconditional
`filtered['法官'] = voiceprints['法官']` raises a `KeyError` (first conjunct,
judge voiceprint absent → the run aborts), and when the judge voiceprint exists
the returned dict is never empty, so the `if not voiceprints` fallback in
`process_video` is unreachable and only the judge's entry is used (second
conjunct). -/
theorem C8_voiceprint_fallback_bug :
    select_voiceprints [("某人", (0 : Int))] ["张三", "法官"] = none ∧
    select_voiceprints [("法官", (0 : Int)), ("李四", (1 : Int))] ["张三"] =
      some [("法官", (0 : Int))] :=
  ⟨by decide, by decide⟩

/-- Claim C9 (confirmed): `parse_time_to_ms` maps `"m:s"` to
`(m*60 + s) * 1000` ms, `"h:m:s"` to `(h*3600 + m*60 + s) * 1000` ms, and a
colon-free integer literal `n` to the integer part of `n * 1000 / 30`
(frames at 30 fps). -/
theorem C9_parse_time (s : String) (fps : Int) :
    (∀ (p0 p1 : List Char) (m sec : Int),
      (pyStrip s.toList).contains ':' = true →
      splitOnColon (pyStrip s.toList) = [p0, p1] →
      pyInt? p0 = some m → pyInt? p1 = some sec →
      parse_time_to_ms s fps = some ((m * 60 + sec) * 1000)) ∧
    (∀ (p0 p1 p2 : List Char) (hrs m sec : Int),
      (pyStrip s.toList).contains ':' = true →
      splitOnColon (pyStrip s.toList) = [p0, p1, p2] →
      pyInt? p0 = some hrs → pyInt? p1 = some m → pyInt? p2 = some sec →
      parse_time_to_ms s fps = some ((hrs * 3600 + m * 60 + sec) * 1000)) ∧
    (∀ n : Int,
      (pyStrip s.toList).contains ':' = false →
      pyInt? (pyStrip s.toList) = some n →
      parse_time_to_ms s 30 = some (Int.tdiv (n * 1000) 30)) := by
  refine ⟨?_, ?_, ?_⟩
  · intro p0 p1 m sec hc hsplit h0 h1
    simp only [String.toList] at hc hsplit
    simp at hc
    simp [parse_time_to_ms, hc, hsplit, h0, h1]
  · intro p0 p1 p2 hrs m sec hc hsplit h0 h1 h2
    simp only [String.toList] at hc hsplit
    simp at hc
    simp [parse_time_to_ms, hc, hsplit, h0, h1, h2]
  · intro n hc hn
    simp only [String.toList] at hc hn
    simp at hc
    simp [parse_time_to_ms, hc, hn]

/-- Claim C9, witness: `"1:30"` parses to 90000 ms, `"1:2:3"` to 3723000 ms,
and the colon-free frame count `"150"` to 5000 ms. -/
theorem C9_parse_time_witness :
    parse_time_to_ms "1:30" 30 = some 90000 ∧
    parse_time_to_ms "1:2:3" 30 = some 3723000 ∧
    parse_time_to_ms "150" 30 = some 5000 :=
  ⟨(C9_parse_time "1:30" 30).1 ['1'] ['3', '0'] 1 30
      (by decide) (by decide) (by decide) (by decide),
    (C9_parse_time "1:2:3" 30).2.1 ['1'] ['2'] ['3'] 1 2 3
      (by decide) (by decide) (by decide) (by decide) (by decide),
    (C9_parse_time "150" 30).2.2 150 (by decide) (by decide)⟩

/-- Claim C10 (confirmed): with an empty voiceprint library the identification
step labels every segment UNKNOWN (`未知`) — for an absent embedding directly,
and for a present embedding through `identify_speaker`'s empty-library early
return — rather than raising an error. -/
theorem C10_empty_library_unknown {E : Type} (sim : E → E → ℚ)
    (embedding : Option E) (threshold : ℚ) :
    identify_segment_speaker sim embedding ([] : List (String × E)) threshold =
      some "未知" := by
  cases embedding with
  | none => rfl
  | some e => rfl

end Werewolf
